import Mathlib

/-!
Shallow embedding of the IPv4 subnet engine of src/app.py and proofs of the
spec claims about it.  Strings are modelled as lists of characters; Python's
unbounded integers are modelled as Int/Nat with explicit masking to 32 bits
where the source masks.  Identifiers follow the source where possible; the
source's word for a CIDR prefix length is shortened to pfx in names.
-/

/-- Characters stripped by Python's str.strip and int() (ASCII subset). -/
def isPySpace (c : Char) : Bool :=
  c = ' ' || c = '\t' || c = '\n' || c = '\x0d' || c = '\x0b' || c = '\x0c'

/-- Strip leading and trailing whitespace, as Python's str.strip(). -/
def pyTrim (s : List Char) : List Char :=
  ((s.dropWhile isPySpace).reverse.dropWhile isPySpace).reverse

/-- After the first digit, Python's int() accepts digits with single
underscores between digits. -/
def intBodyRest : List Char → Bool
  | [] => true
  | c :: rest =>
    if c = '_' then
      match rest with
      | [] => false
      | c2 :: rest2 => c2.isDigit && intBodyRest rest2
    else c.isDigit && intBodyRest rest

/-- The digit part accepted by Python's int(): a digit followed by digits
with single underscores between digits. -/
def validIntBody (s : List Char) : Bool :=
  match s with
  | [] => false
  | c :: rest => c.isDigit && intBodyRest rest

/-- Numeric value of an ASCII digit. -/
def digitVal (c : Char) : Nat := c.toNat - 48

/-- Decimal value of a digit list. -/
def decVal (s : List Char) : Nat :=
  s.foldl (fun a c => 10 * a + digitVal c) 0

/-- Decimal value of a valid int body: underscores are grouping only. -/
def segVal (s : List Char) : Nat :=
  decVal (s.filter (fun c => c != '_'))

/-- Python's int(str): strip whitespace, optional sign, decimal digits
(underscores allowed between digits); None when the string is rejected. -/
def pyInt (s : List Char) : Option Int :=
  match pyTrim s with
  | [] => none
  | c :: rest =>
    if c = '+' then
      if validIntBody rest then some (segVal rest : Int) else none
    else if c = '-' then
      if validIntBody rest then some (-(segVal rest : Int)) else none
    else
      if validIntBody (c :: rest) then some (segVal (c :: rest) : Int) else none

/-- Python's str.split(sep) for a one-character separator: splitting the
empty string yields one empty segment. -/
def splitOnChar (sep : Char) : List Char → List (List Char)
  | [] => [[]]
  | c :: rest =>
    if c = sep then [] :: splitOnChar sep rest
    else
      match splitOnChar sep rest with
      | [] => [[c]]
      | seg :: segs => (c :: seg) :: segs

/-- int() applied to every segment, aborting at the first ValueError, as the
list comprehension in parse_ipv4 does. -/
def pyIntList : List (List Char) → Option (List Int)
  | [] => some []
  | s :: rest =>
    match pyInt s with
    | none => none
    | some v =>
      match pyIntList rest with
      | none => none
      | some vs => some (v :: vs)

/-- The three ValueError messages parse_ipv4 can raise. -/
inductive ParseErr
  | format
  | octetCount
  | octetRange (i : Nat)
deriving DecidableEq

/-- First octet outside [0,255], reported 1-based, as the loop in
parse_ipv4 (first failure wins). -/
def firstBadOctet : Nat → List Int → Option Nat
  | _, [] => none
  | i, o :: rest =>
    if o < 0 || 255 < o then some i else firstBadOctet (i + 1) rest

/-- parse_ipv4 from src/app.py: split on dots, int() each segment
(failure = format error), require 4 octets, require each in [0,255]. -/
def parse_ipv4 (ip_str : List Char) : Except ParseErr (List Int) :=
  match pyIntList (splitOnChar '.' ip_str) with
  | none => .error .format
  | some octets =>
    if octets.length ≠ 4 then .error .octetCount
    else
      match firstBadOctet 1 octets with
      | some i => .error (.octetRange i)
      | none => .ok octets

/-- octets_to_int from src/app.py. -/
def octets_to_int (octets : List Nat) : Nat :=
  octets.foldl (fun value o => (value <<< 8) ||| o) 0

/-- int_to_octets from src/app.py. -/
def int_to_octets (value : Nat) : List Nat :=
  [(value >>> 24) &&& 0xFF, (value >>> 16) &&& 0xFF, (value >>> 8) &&& 0xFF,
    value &&& 0xFF]

/-- detect_class from src/app.py. -/
def detect_class (first_octet : Nat) : String :=
  if 1 ≤ first_octet ∧ first_octet ≤ 126 then "Class A"
  else if 128 ≤ first_octet ∧ first_octet ≤ 191 then "Class B"
  else if 192 ≤ first_octet ∧ first_octet ≤ 223 then "Class C"
  else if 224 ≤ first_octet ∧ first_octet ≤ 239 then "Class D (Multicast)"
  else if 240 ≤ first_octet ∧ first_octet ≤ 254 then "Class E (Experimental)"
  else if first_octet = 127 then "Loopback"
  else "Unknown"

/-- detect_network_type from src/app.py; the source unpacks the first two
octets and is only called with 4-octet lists, so the under-2 case is
unreachable. -/
def detect_network_type (octets : List Nat) : String :=
  match octets with
  | a :: b :: _ =>
    if a = 10 then "Private (10.0.0.0/8)"
    else if a = 172 ∧ 16 ≤ b ∧ b ≤ 31 then "Private (172.16.0.0/12)"
    else if a = 192 ∧ b = 168 then "Private (192.168.0.0/16)"
    else if a = 127 then "Loopback"
    else if a = 169 ∧ b = 254 then "Link-local (APIPA)"
    else if a = 0 then "Software / Current network"
    else if 224 ≤ a ∧ a ≤ 239 then "Multicast"
    else if 240 ≤ a ∧ a ≤ 255 then "Reserved / Experimental"
    else "Public"
  | _ => "Unknown"

/-- mask_from_prefix from src/app.py (prefix length shortened to pfx):
0 for 0, else the top bits set, masked to 32 bits. -/
def mask_from_pfx (pfx : Nat) : Nat :=
  if pfx = 0 then 0 else (0xFFFFFFFF <<< (32 - pfx)) &&& 0xFFFFFFFF

/-- The inline wildcard computation of src/app.py line 137:
Python (~m) & 0xFFFFFFFF on the unbounded int m, i.e. (-m-1) mod 2^32. -/
def wildcard32 (mask_int : Nat) : Nat :=
  (((-(mask_int : Int)) - 1) % (2 ^ 32 : Int)).toNat

/-- Total host count of src/app.py line 144 (int(math.pow(2, 32-p)) is exact
for p in [0,32]). -/
def total_hosts (pfx : Nat) : Nat :=
  if pfx = 32 then 1 else 2 ^ (32 - pfx)

/-- Usable host count of src/app.py lines 146-153. -/
def usable_hosts (pfx : Nat) : Nat :=
  if pfx ≤ 30 then max (total_hosts pfx - 2) 0 else 0

/-- The computed fields of the /api/ip-info response (input echo and
timestamp omitted: pure I/O echo).  Numeric fields keep the 32-bit integer
values that the source formats with int_to_ip. -/
structure InfoRec where
  pfx : Nat
  octets : List Nat
  ip_class : String
  network_type : String
  subnet_mask : Nat
  wildcard_mask : Nat
  network_id : Nat
  broadcast : Nat
  host_min : Option Nat
  host_max : Option Nat
  total_hosts : Nat
  usable_hosts : Nat
deriving DecidableEq

/-- The error responses of the ip_info endpoint. -/
inductive InfoErr
  | ipRequired
  | pfxRange
  | parse (e : ParseErr)
deriving DecidableEq

/-- Lines 131-168 of src/app.py: the pure computation on validated octets
and prefix length. -/
def ip_info_core (octets : List Nat) (pfx : Nat) : InfoRec :=
  let ip_int := octets_to_int octets
  let mask_int := mask_from_pfx pfx
  let wildcard_int := wildcard32 mask_int
  let network_int := ip_int &&& mask_int
  let broadcast_int := network_int ||| wildcard_int
  let usable := usable_hosts pfx
  { pfx := pfx
    octets := octets
    ip_class := detect_class (octets.headD 0)
    network_type := detect_network_type octets
    subnet_mask := mask_int
    wildcard_mask := wildcard_int
    network_id := network_int
    broadcast := broadcast_int
    host_min := if pfx ≤ 30 ∧ 0 < usable then some (network_int + 1) else none
    host_max := if pfx ≤ 30 ∧ 0 < usable then some (broadcast_int - 1) else none
    total_hosts := total_hosts pfx
    usable_hosts := usable }

/-- The ip_info endpoint of src/app.py (lines 118-187), after the JSON
layer has extracted the stripped address string and the integer prefix. -/
def ip_info (ip_str : List Char) (pfx : Int) : Except InfoErr InfoRec :=
  if ip_str = [] then .error .ipRequired
  else if pfx < 0 ∨ 32 < pfx then .error .pfxRange
  else
    match parse_ipv4 ip_str with
    | .error e => .error (.parse e)
    | .ok octets => .ok (ip_info_core (octets.map Int.toNat) pfx.toNat)

/-- Bit length of a natural number, fuel-guided so that it is structurally
recursive (fuel at least the number suffices). -/
def bitLenAux : Nat → Nat → Nat
  | 0, _ => 0
  | _ + 1, 0 => 0
  | fuel + 1, m + 1 => bitLenAux fuel ((m + 1) / 2) + 1

/-- Bit length: 0 for 0, else one more than the bit length of the half. -/
def bitLen (m : Nat) : Nat := bitLenAux m m

/-- math.ceil(math.log2(n)) of src/app.py line 227, computed exactly: the
least k with n ≤ 2^k (0 for n ≤ 1).  The float computation agrees with the
exact one wherever the difference could affect control flow. -/
def ceil_log2 (n : Nat) : Nat := bitLen (n - 1)

/-- One subnet record of the /api/subnetting response (numeric fields; the
source formats them with int_to_ip).  The source emits host_min/host_max
through a Python truthiness check, hence the zero tests. -/
structure SubnetRec where
  subnet_number : Nat
  network : Nat
  broadcast : Nat
  host_min : Option Nat
  host_max : Option Nat
  total_hosts : Nat
  usable_hosts : Nat
deriving DecidableEq

/-- The /api/subnetting response record (numeric fields). -/
structure SubnetResult where
  original_network : Nat
  original_pfx : Nat
  subnets_needed : Nat
  bits_borrowed : Nat
  new_pfx : Nat
  subnets : List SubnetRec
  total_subnets_created : Nat
deriving DecidableEq

/-- The error responses of the subnetting endpoint. -/
inductive SubnetErr
  | cidrFormat
  | unpack
  | pfxNotInt
  | pfxRange
  | invalidCount
  | parse (e : ParseErr)
  | exceeds32
deriving DecidableEq

/-- The body of the subnet loop of src/app.py lines 240-255 at index i. -/
def mk_subnet (network_int new_pfx hosts usable size i : Nat) : SubnetRec :=
  let subnet_network := network_int + i * size
  let subnet_broadcast := subnet_network + size - 1
  { subnet_number := i + 1
    network := subnet_network
    broadcast := subnet_broadcast
    host_min :=
      if new_pfx ≤ 30 then
        if subnet_network + 1 = 0 then none else some (subnet_network + 1)
      else none
    host_max :=
      if new_pfx ≤ 30 then
        if subnet_broadcast - 1 = 0 then none else some (subnet_broadcast - 1)
      else none
    total_hosts := hosts
    usable_hosts := usable }

/-- Lines 226-264 of src/app.py: the subnet computation on the already
masked network integer, validated prefix length and subnet count. -/
def subnettingCore (network_int pfx subnets_needed : Nat) :
    Except SubnetErr SubnetResult :=
  let bits_needed := ceil_log2 subnets_needed
  let new_pfx := pfx + bits_needed
  if 32 < new_pfx then .error .exceeds32
  else
    let hosts_per_subnet := 2 ^ (32 - new_pfx)
    let usable_per_subnet :=
      if new_pfx ≤ 30 then max (hosts_per_subnet - 2) 0 else 0
    let subnet_size := 2 ^ (32 - new_pfx)
    let subnets :=
      (List.range (min subnets_needed (2 ^ bits_needed))).map
        (mk_subnet network_int new_pfx hosts_per_subnet usable_per_subnet
          subnet_size)
    .ok
      { original_network := network_int
        original_pfx := pfx
        subnets_needed := subnets_needed
        bits_borrowed := bits_needed
        new_pfx := new_pfx
        subnets := subnets
        total_subnets_created := subnets.length }

/-- The subnetting endpoint of src/app.py (lines 201-270), after the JSON
layer has extracted the stripped CIDR string and the integer subnet count.
A CIDR string with more than one slash makes the two-name unpacking raise
ValueError (unpack). -/
def subnetting (network_str : List Char) (subnets_needed : Int) :
    Except SubnetErr SubnetResult :=
  if network_str = [] ∨ ¬ network_str.contains '/' then .error .cidrFormat
  else
    match splitOnChar '/' network_str with
    | [ip_part, pfx_str] =>
      match pyInt pfx_str with
      | none => .error .pfxNotInt
      | some pfx =>
        if pfx < 0 ∨ 32 < pfx then .error .pfxRange
        else if subnets_needed < 1 then .error .invalidCount
        else
          match parse_ipv4 ip_part with
          | .error e => .error (.parse e)
          | .ok octets =>
            subnettingCore
              (octets_to_int (octets.map Int.toNat) &&& mask_from_pfx pfx.toNat)
              pfx.toNat subnets_needed.toNat
    | _ => .error .unpack

/-- Concrete result of partition("0.0.0.0/31", 2), used as a witness
input. -/
def result_0_31_2 : SubnetResult :=
  { original_network := 0, original_pfx := 31, subnets_needed := 2,
    bits_borrowed := 1, new_pfx := 32,
    subnets := [
      { subnet_number := 1, network := 0, broadcast := 0,
        host_min := none, host_max := none, total_hosts := 1,
        usable_hosts := 0 },
      { subnet_number := 2, network := 1, broadcast := 1,
        host_min := none, host_max := none, total_hosts := 1,
        usable_hosts := 0 }],
    total_subnets_created := 2 }

/-- Concrete result of partition("192.168.1.77/24", 1): the host bits of
.77 are masked away. -/
def result_77_24_1 : SubnetResult :=
  { original_network := 3232235776, original_pfx := 24, subnets_needed := 1,
    bits_borrowed := 0, new_pfx := 24,
    subnets := [
      { subnet_number := 1, network := 3232235776, broadcast := 3232236031,
        host_min := some 3232235777, host_max := some 3232236030,
        total_hosts := 256, usable_hosts := 254 }],
    total_subnets_created := 1 }

theorem bitLenAux_lt (fuel : Nat) : ∀ m, m ≤ fuel → m < 2 ^ bitLenAux fuel m := by
  induction fuel with
  | zero =>
    intro m hm
    interval_cases m
    simp [bitLenAux]
  | succ f ih =>
    intro m hm
    cases m with
    | zero => simp [bitLenAux]
    | succ k =>
      have hhalf : (k + 1) / 2 ≤ f := by omega
      have hrec := ih ((k + 1) / 2) hhalf
      rw [show bitLenAux (f + 1) (k + 1) = bitLenAux f ((k + 1) / 2) + 1 from rfl,
        pow_succ]
      omega

theorem bitLenAux_le (fuel : Nat) :
    ∀ m k, m ≤ fuel → m < 2 ^ k → bitLenAux fuel m ≤ k := by
  induction fuel with
  | zero => intro m k _ _; simp [bitLenAux]
  | succ f ih =>
    intro m k hm hk
    cases m with
    | zero => simp [bitLenAux]
    | succ j =>
      cases k with
      | zero => simp at hk
      | succ k2 =>
        have hhalf : (j + 1) / 2 ≤ f := by omega
        have hlt : (j + 1) / 2 < 2 ^ k2 := by
          rw [pow_succ] at hk
          omega
        have := ih ((j + 1) / 2) k2 hhalf hlt
        rw [show bitLenAux (f + 1) (j + 1) = bitLenAux f ((j + 1) / 2) + 1 from rfl]
        omega

theorem le_two_pow_ceil_log2 (n : Nat) : n ≤ 2 ^ ceil_log2 n := by
  have := bitLenAux_lt (n - 1) (n - 1) le_rfl
  unfold ceil_log2 bitLen
  omega

theorem ceil_log2_le (n k : Nat) (h : n ≤ 2 ^ k) : ceil_log2 n ≤ k := by
  have hpos : 0 < 2 ^ k := pow_pos (by norm_num) k
  exact bitLenAux_le (n - 1) (n - 1) k le_rfl (by omega)

theorem ceil_log2_pow (k : Nat) : ceil_log2 (2 ^ k) = k := by
  refine le_antisymm (ceil_log2_le _ _ le_rfl) ?_
  have h := le_two_pow_ceil_log2 (2 ^ k)
  exact (Nat.pow_le_pow_iff_right (by norm_num)).mp h

theorem mask_lt (p : Nat) : mask_from_pfx p < 2 ^ 32 := by
  unfold mask_from_pfx
  split
  · norm_num
  · exact Nat.and_lt_two_pow _ (by norm_num)

theorem mask_testBit_ball (p : Nat) (hp : p ≤ 32) :
    ∀ i, i < 32 → (mask_from_pfx p).testBit i = decide (32 - p ≤ i) := by
  interval_cases p <;> decide

theorem testBit_false_of_lt32 (a i : Nat) (ha : a < 2 ^ 32) (hi : 32 ≤ i) :
    a.testBit i = false :=
  Nat.testBit_lt_two_pow
    (lt_of_lt_of_le ha (Nat.pow_le_pow_right (by norm_num) hi))

theorem mask_testBit (p i : Nat) (hp : p ≤ 32) :
    (mask_from_pfx p).testBit i = (decide (32 - p ≤ i) && decide (i < 32)) := by
  by_cases hi : i < 32
  · simp [mask_testBit_ball p hp i hi, hi]
  · simp [testBit_false_of_lt32 _ i (mask_lt p) (by omega), hi]

theorem testBit_false_of_mod (a e i : Nat) (h : a % 2 ^ e = 0) (hi : i < e) :
    a.testBit i = false := by
  have h2 := Nat.testBit_mod_two_pow a e i
  rw [h, Nat.zero_testBit] at h2
  simpa [hi] using h2.symm

theorem land_mask_mod (p a : Nat) (hp : p ≤ 32) :
    (a &&& mask_from_pfx p) % 2 ^ (32 - p) = 0 := by
  apply Nat.eq_of_testBit_eq
  intro i
  rw [Nat.zero_testBit, Nat.testBit_mod_two_pow, Nat.testBit_and,
    mask_testBit p i hp]
  by_cases h : i < 32 - p
  · have hnot : ¬ (32 - p ≤ i) := by omega
    simp [hnot]
  · simp [h]

theorem land_mask_self (p a : Nat) (hp : p ≤ 32) (ha : a < 2 ^ 32)
    (hmod : a % 2 ^ (32 - p) = 0) : a &&& mask_from_pfx p = a := by
  apply Nat.eq_of_testBit_eq
  intro i
  rw [Nat.testBit_and, mask_testBit p i hp]
  by_cases hi : i < 32
  · by_cases hlow : i < 32 - p
    · have := testBit_false_of_mod a (32 - p) i hmod hlow
      simp [this]
    · have h1 : 32 - p ≤ i := by omega
      simp [h1, hi]
  · simp [testBit_false_of_lt32 a i ha (by omega)]

theorem and_mask_idem (x m : Nat) : (x &&& m) &&& m = x &&& m := by
  apply Nat.eq_of_testBit_eq
  intro i
  simp [Nat.testBit_and, Bool.and_assoc]

theorem subnettingCore_ok (N p n : Nat) (r : SubnetResult)
    (h : subnettingCore N p n = .ok r) :
    p + ceil_log2 n ≤ 32 ∧
    r.original_network = N ∧ r.original_pfx = p ∧ r.subnets_needed = n ∧
    r.bits_borrowed = ceil_log2 n ∧ r.new_pfx = p + ceil_log2 n ∧
    r.subnets = (List.range (min n (2 ^ ceil_log2 n))).map
      (mk_subnet N (p + ceil_log2 n) (2 ^ (32 - (p + ceil_log2 n)))
        (if p + ceil_log2 n ≤ 30 then max (2 ^ (32 - (p + ceil_log2 n)) - 2) 0
          else 0)
        (2 ^ (32 - (p + ceil_log2 n)))) := by
  unfold subnettingCore at h
  by_cases hle : 32 < p + ceil_log2 n
  · simp [hle] at h
  · simp only [hle, if_false] at h
    rw [Except.ok.injEq] at h
    subst h
    refine ⟨by omega, rfl, rfl, rfl, rfl, rfl, rfl⟩

theorem subnetting_ok (s : List Char) (n : Int) (r : SubnetResult)
    (h : subnetting s n = .ok r) :
    ∃ x p m, p ≤ 32 ∧ 1 ≤ m ∧
      subnettingCore (x &&& mask_from_pfx p) p m = .ok r := by
  unfold subnetting at h
  by_cases h1 : s = [] ∨ ¬ s.contains '/'
  · rw [if_pos h1] at h
    simp at h
  · rw [if_neg h1] at h
    split at h
    · rename_i ip_part pfx_str
      split at h
      · simp at h
      · rename_i pfx hpyint
        by_cases h2 : pfx < 0 ∨ 32 < pfx
        · simp [h2] at h
        · rw [if_neg h2] at h
          by_cases h3 : n < 1
          · simp [h3] at h
          · rw [if_neg h3] at h
            split at h
            · simp at h
            · rename_i octets hparse
              exact ⟨octets_to_int (octets.map Int.toNat), pfx.toNat, n.toNat,
                by omega, by omega, h⟩
    · simp at h

theorem subnettingCore_length (N p n : Nat) (r : SubnetResult)
    (h : subnettingCore N p n = .ok r) :
    r.subnets.length = min n (2 ^ ceil_log2 n) := by
  obtain ⟨-, -, -, -, -, -, hsubs⟩ := subnettingCore_ok N p n r h
  rw [hsubs]
  simp

theorem subnettingCore_get (N p n : Nat) (r : SubnetResult)
    (h : subnettingCore N p n = .ok r) (i : Nat) (hi : i < r.subnets.length) :
    r.subnets.get ⟨i, hi⟩ = mk_subnet N (p + ceil_log2 n)
      (2 ^ (32 - (p + ceil_log2 n)))
      (if p + ceil_log2 n ≤ 30 then max (2 ^ (32 - (p + ceil_log2 n)) - 2) 0
        else 0)
      (2 ^ (32 - (p + ceil_log2 n))) i := by
  obtain ⟨-, -, -, -, -, -, hsubs⟩ := subnettingCore_ok N p n r h
  have hlen := subnettingCore_length N p n r h
  have hi2 : i < min n (2 ^ ceil_log2 n) := hlen ▸ hi
  have h1 : r.subnets[i]? = some (mk_subnet N (p + ceil_log2 n)
      (2 ^ (32 - (p + ceil_log2 n)))
      (if p + ceil_log2 n ≤ 30 then max (2 ^ (32 - (p + ceil_log2 n)) - 2) 0
        else 0)
      (2 ^ (32 - (p + ceil_log2 n))) i) := by
    rw [hsubs]
    simp [List.getElem?_map, List.getElem?_range, hi2]
  have h2 : r.subnets[i]? = some (r.subnets.get ⟨i, hi⟩) := by
    rw [List.get_eq_getElem]
    exact List.getElem?_eq_getElem hi
  rw [h1] at h2
  exact (Option.some.inj h2).symm

theorem mk_subnet_network (N np hosts usable size i : Nat) :
    (mk_subnet N np hosts usable size i).network = N + i * size := rfl

theorem mk_subnet_broadcast (N np hosts usable size i : Nat) :
    (mk_subnet N np hosts usable size i).broadcast = N + i * size + size - 1 :=
  rfl

theorem mk_subnet_number (N np hosts usable size i : Nat) :
    (mk_subnet N np hosts usable size i).subnet_number = i + 1 := rfl

theorem subnettingCore_disjoint (N p n : Nat) (r : SubnetResult)
    (h : subnettingCore N p n = .ok r) (i j : Nat)
    (hi : i < r.subnets.length) (hj : j < r.subnets.length) (hij : i ≠ j)
    (a : Nat) :
    ¬ ((r.subnets.get ⟨i, hi⟩).network ≤ a ∧
        a ≤ (r.subnets.get ⟨i, hi⟩).broadcast ∧
        (r.subnets.get ⟨j, hj⟩).network ≤ a ∧
        a ≤ (r.subnets.get ⟨j, hj⟩).broadcast) := by
  have key : ∀ i2 j2 (hi2 : i2 < r.subnets.length)
      (hj2 : j2 < r.subnets.length), i2 < j2 →
      (r.subnets.get ⟨i2, hi2⟩).network ≤ a →
      a ≤ (r.subnets.get ⟨i2, hi2⟩).broadcast →
      (r.subnets.get ⟨j2, hj2⟩).network ≤ a →
      a ≤ (r.subnets.get ⟨j2, hj2⟩).broadcast → False := by
    intro i2 j2 hi2 hj2 hlt h1 h2 h3 h4
    rw [subnettingCore_get N p n r h i2 hi2, mk_subnet_network] at h1
    rw [subnettingCore_get N p n r h i2 hi2, mk_subnet_broadcast] at h2
    rw [subnettingCore_get N p n r h j2 hj2, mk_subnet_network] at h3
    have hs : 0 < 2 ^ (32 - (p + ceil_log2 n)) := pow_pos (by norm_num) _
    have hmul : i2 * 2 ^ (32 - (p + ceil_log2 n)) + 2 ^ (32 - (p + ceil_log2 n))
        ≤ j2 * 2 ^ (32 - (p + ceil_log2 n)) := by
      have := Nat.mul_le_mul_right (2 ^ (32 - (p + ceil_log2 n)))
        (show i2 + 1 ≤ j2 by omega)
      rw [Nat.succ_mul] at this
      exact this
    omega
  rintro ⟨h1, h2, h3, h4⟩
  rcases Nat.lt_or_ge i j with hlt | hge
  · exact key i j hi hj hlt h1 h2 h3 h4
  · exact key j i hj hi (by omega) h3 h4 h1 h2

theorem subnettingCore_cover (N p n : Nat) (r : SubnetResult)
    (h : subnettingCore N p n = .ok r) (k : Nat) (hk : n = 2 ^ k) (a : Nat) :
    (N ≤ a ∧ a ≤ N + 2 ^ (32 - p) - 1) ↔
    ∃ t ∈ r.subnets, t.network ≤ a ∧ a ≤ t.broadcast := by
  obtain ⟨hle, -, -, -, -, -, hsubs⟩ := subnettingCore_ok N p n r h
  subst hk
  rw [ceil_log2_pow] at hle hsubs
  have hs : 0 < 2 ^ (32 - (p + k)) := pow_pos (by norm_num) _
  have he : 2 ^ (32 - p) = 2 ^ k * 2 ^ (32 - (p + k)) := by
    rw [← pow_add]
    congr 1
    omega
  constructor
  · rintro ⟨h1, h2⟩
    have hd : a - N < 2 ^ k * 2 ^ (32 - (p + k)) := by
      rw [← he]
      have := pow_pos (show 0 < 2 by norm_num) (32 - p)
      omega
    have hilt : (a - N) / 2 ^ (32 - (p + k)) < 2 ^ k :=
      (Nat.div_lt_iff_lt_mul hs).mpr (by
        calc a - N < 2 ^ k * 2 ^ (32 - (p + k)) := hd
        _ = 2 ^ k * 2 ^ (32 - (p + k)) := rfl)
    have hmod := Nat.div_add_mod (a - N) (2 ^ (32 - (p + k)))
    have hrem : (a - N) % 2 ^ (32 - (p + k)) < 2 ^ (32 - (p + k)) :=
      Nat.mod_lt _ hs
    refine ⟨mk_subnet N (p + k) (2 ^ (32 - (p + k)))
      (if p + k ≤ 30 then max (2 ^ (32 - (p + k)) - 2) 0 else 0)
      (2 ^ (32 - (p + k))) ((a - N) / 2 ^ (32 - (p + k))), ?_, ?_, ?_⟩
    · rw [hsubs]
      simp only [min_self]
      exact List.mem_map_of_mem _ (List.mem_range.mpr hilt)
    · rw [mk_subnet_network]
      have hcomm : (a - N) / 2 ^ (32 - (p + k)) * 2 ^ (32 - (p + k))
          = 2 ^ (32 - (p + k)) * ((a - N) / 2 ^ (32 - (p + k))) :=
        Nat.mul_comm _ _
      omega
    · rw [mk_subnet_broadcast]
      have hcomm : (a - N) / 2 ^ (32 - (p + k)) * 2 ^ (32 - (p + k))
          = 2 ^ (32 - (p + k)) * ((a - N) / 2 ^ (32 - (p + k))) :=
        Nat.mul_comm _ _
      omega
  · rintro ⟨t, hmem, h1, h2⟩
    rw [hsubs] at hmem
    simp only [min_self] at hmem
    obtain ⟨i, hir, rfl⟩ := List.mem_map.mp hmem
    have hilt := List.mem_range.mp hir
    rw [mk_subnet_network] at h1
    rw [mk_subnet_broadcast] at h2
    have hmul : i * 2 ^ (32 - (p + k)) + 2 ^ (32 - (p + k))
        ≤ 2 ^ k * 2 ^ (32 - (p + k)) := by
      have := Nat.mul_le_mul_right (2 ^ (32 - (p + k)))
        (show i + 1 ≤ 2 ^ k by omega)
      rw [Nat.succ_mul] at this
      exact this
    rw [he]
    omega

theorem subnettingCore_aligned (x p n : Nat) (r : SubnetResult) (hp : p ≤ 32)
    (h : subnettingCore (x &&& mask_from_pfx p) p n = .ok r) :
    r.original_network &&& mask_from_pfx r.original_pfx = r.original_network ∧
    ∀ t ∈ r.subnets, t.network &&& mask_from_pfx r.new_pfx = t.network := by
  obtain ⟨hle, ho, hop, -, -, hnp, hsubs⟩ := subnettingCore_ok _ p n r h
  have hNlt : x &&& mask_from_pfx p < 2 ^ 32 := Nat.and_lt_two_pow x (mask_lt p)
  have hNmod : (x &&& mask_from_pfx p) % 2 ^ (32 - p) = 0 := land_mask_mod p x hp
  constructor
  · rw [ho, hop]
    exact and_mask_idem x (mask_from_pfx p)
  · intro t hmem
    rw [hsubs] at hmem
    obtain ⟨i, hir, rfl⟩ := List.mem_map.mp hmem
    have hilt := List.mem_range.mp hir
    rw [mk_subnet_network, hnp]
    have hs : 0 < 2 ^ (32 - (p + ceil_log2 n)) := pow_pos (by norm_num) _
    have he : 2 ^ (32 - p) = 2 ^ ceil_log2 n * 2 ^ (32 - (p + ceil_log2 n)) := by
      rw [← pow_add]
      congr 1
      omega
    have hdvdN : 2 ^ (32 - p) ∣ (x &&& mask_from_pfx p) :=
      Nat.dvd_of_mod_eq_zero hNmod
    have hdvds : 2 ^ (32 - (p + ceil_log2 n)) ∣ 2 ^ (32 - p) :=
      ⟨2 ^ ceil_log2 n, by rw [he]; ring⟩
    have hdvd : 2 ^ (32 - (p + ceil_log2 n)) ∣
        (x &&& mask_from_pfx p) + i * 2 ^ (32 - (p + ceil_log2 n)) :=
      Nat.dvd_add (hdvds.trans hdvdN) (Nat.dvd_mul_left _ i)
    have hE : (2 : Nat) ^ 32 = 2 ^ (32 - p) * 2 ^ p := by
      rw [← pow_add]
      congr 1
      omega
    have hdvdE : 2 ^ (32 - p) ∣ 2 ^ 32 := ⟨2 ^ p, hE⟩
    have hNle : (x &&& mask_from_pfx p) + 2 ^ (32 - p) ≤ 2 ^ 32 := by
      have hdvdsub : 2 ^ (32 - p) ∣ (2 ^ 32 - (x &&& mask_from_pfx p)) :=
        Nat.dvd_sub' hdvdE hdvdN
      have hpos : 0 < 2 ^ 32 - (x &&& mask_from_pfx p) := by omega
      have := Nat.le_of_dvd hpos hdvdsub
      omega
    have hmul : i * 2 ^ (32 - (p + ceil_log2 n)) + 2 ^ (32 - (p + ceil_log2 n))
        ≤ 2 ^ ceil_log2 n * 2 ^ (32 - (p + ceil_log2 n)) := by
      have hic : i < 2 ^ ceil_log2 n := lt_of_lt_of_le hilt (min_le_right _ _)
      have := Nat.mul_le_mul_right (2 ^ (32 - (p + ceil_log2 n)))
        (show i + 1 ≤ 2 ^ ceil_log2 n by omega)
      rw [Nat.succ_mul] at this
      exact this
    apply land_mask_self (p + ceil_log2 n) _ (by omega)
    · omega
    · exact Nat.mod_eq_zero_of_dvd hdvd

theorem digit_ne (c : Char) (hc : c.isDigit = true) (d : Char)
    (hd : d.isDigit = false) : c ≠ d := by
  intro h
  subst h
  rw [hc] at hd
  cases hd

theorem digit_not_space (c : Char) (hc : c.isDigit = true) :
    isPySpace c = false := by
  by_contra hcon
  rw [Bool.not_eq_false] at hcon
  unfold isPySpace at hcon
  simp only [Bool.or_eq_true, decide_eq_true_eq] at hcon
  rcases hcon with ((((h | h) | h) | h) | h) | h <;> subst h <;>
    exact absurd hc (by decide)

theorem intBodyRest_digits (s : List Char) (h : ∀ c ∈ s, c.isDigit = true) :
    intBodyRest s = true := by
  induction s with
  | nil => rfl
  | cons c rest ih =>
    have hc := h c (List.mem_cons_self c rest)
    have hne : ¬ c = '_' := digit_ne c hc '_' (by decide)
    have ih2 := ih (fun a ha => h a (List.mem_cons_of_mem _ ha))
    rw [intBodyRest.eq_def]
    simp only [if_neg hne, hc, ih2, Bool.and_self]

theorem validIntBody_digits (s : List Char) (hne : s ≠ [])
    (h : ∀ c ∈ s, c.isDigit = true) : validIntBody s = true := by
  obtain ⟨c, rest, rfl⟩ := List.exists_cons_of_ne_nil hne
  have hc := h c (List.mem_cons_self c rest)
  simp only [validIntBody, hc,
    intBodyRest_digits rest (fun a ha => h a (List.mem_cons_of_mem _ ha)),
    Bool.and_self]

theorem pyTrim_digits (s : List Char) (hne : s ≠ [])
    (h : ∀ c ∈ s, c.isDigit = true) : pyTrim s = s := by
  obtain ⟨c, rest, rfl⟩ := List.exists_cons_of_ne_nil hne
  have hc := h c (List.mem_cons_self c rest)
  unfold pyTrim
  have h1 : (c :: rest).dropWhile isPySpace = c :: rest :=
    List.dropWhile_cons_of_neg (by simp [digit_not_space c hc])
  rw [h1]
  cases hrev : (c :: rest).reverse with
  | nil => exact absurd hrev (by simp)
  | cons d rest2 =>
    have hd : d.isDigit = true := by
      refine h d (List.mem_reverse.mp ?_)
      rw [hrev]
      exact List.mem_cons_self d rest2
    have h2 : List.dropWhile isPySpace (d :: rest2) = d :: rest2 :=
      List.dropWhile_cons_of_neg (by simp [digit_not_space d hd])
    rw [h2, ← hrev, List.reverse_reverse]

theorem filter_underscore_digits (s : List Char)
    (h : ∀ c ∈ s, c.isDigit = true) :
    s.filter (fun x => x != '_') = s := by
  refine List.filter_eq_self.mpr (fun a ha => ?_)
  have := digit_ne a (h a ha) '_' (by decide)
  simpa [bne_iff_ne] using this

theorem pyInt_digits (s : List Char) (hne : s ≠ [])
    (h : ∀ c ∈ s, c.isDigit = true) :
    pyInt s = some ((decVal s : Nat) : Int) := by
  obtain ⟨c, rest, rfl⟩ := List.exists_cons_of_ne_nil hne
  have hc := h c (List.mem_cons_self c rest)
  have h1 : c ≠ '+' := digit_ne c hc '+' (by decide)
  have h2 : c ≠ '-' := digit_ne c hc '-' (by decide)
  have h3 : validIntBody (c :: rest) = true :=
    validIntBody_digits _ (by simp) h
  have h4 : segVal (c :: rest) = decVal (c :: rest) := by
    unfold segVal
    rw [filter_underscore_digits _ h]
  unfold pyInt
  rw [pyTrim_digits (c :: rest) (by simp) h]
  simp [h1, h2, h3, h4]

theorem pyIntList_none (parts : List (List Char))
    (h : ∃ seg ∈ parts, pyInt seg = none) : pyIntList parts = none := by
  induction parts with
  | nil => simp at h
  | cons s rest ih =>
    obtain ⟨seg, hmem, hseg⟩ := h
    rcases List.mem_cons.mp hmem with rfl | hm
    · simp only [pyIntList, hseg]
    · simp only [pyIntList]
      rw [ih ⟨seg, hm, hseg⟩]
      cases pyInt s <;> rfl

theorem splitOnChar_append (sep : Char) (a b : List Char) :
    sep ∉ a → splitOnChar sep (a ++ sep :: b) = a :: splitOnChar sep b := by
  induction a with
  | nil =>
    intro _
    simp [splitOnChar]
  | cons x a2 ih =>
    intro ha
    have hx : ¬ x = sep := fun hcon => ha (hcon ▸ List.mem_cons_self x a2)
    have ha2 : sep ∉ a2 := fun hcon => ha (List.mem_cons_of_mem _ hcon)
    rw [List.cons_append]
    simp only [splitOnChar, if_neg hx]
    rw [ih ha2]

theorem splitOnChar_no_sep (sep : Char) (s : List Char) :
    sep ∉ s → splitOnChar sep s = [s] := by
  induction s with
  | nil => intro _; rfl
  | cons x rest ih =>
    intro h
    have hx : ¬ x = sep := fun hcon => h (hcon ▸ List.mem_cons_self x rest)
    simp only [splitOnChar, if_neg hx]
    rw [ih (fun hm => h (List.mem_cons_of_mem _ hm))]

theorem firstBadOctet_none_of_le (i : Nat) (l : List Int)
    (h : ∀ o ∈ l, 0 ≤ o ∧ o ≤ 255) : firstBadOctet i l = none := by
  induction l generalizing i with
  | nil => rfl
  | cons o rest ih =>
    obtain ⟨h1, h2⟩ := h o (List.mem_cons_self o rest)
    have hcond : (o < 0 || 255 < o) = false := by
      simp only [Bool.or_eq_false_iff, decide_eq_false_iff_not]
      constructor <;> omega
    simp only [firstBadOctet, hcond, Bool.false_eq_true, if_false]
    exact ih _ (fun a ha => h a (List.mem_cons_of_mem _ ha))

theorem ip_info_core_host_range (octets : List Nat) (q : Nat) (hq : q ≤ 32) :
    (((ip_info_core octets q).host_min = none ∧
        (ip_info_core octets q).host_max = none) ↔
      (ip_info_core octets q).usable_hosts = 0) ∧
    (0 < (ip_info_core octets q).usable_hosts →
      (ip_info_core octets q).host_min =
        some ((ip_info_core octets q).network_id + 1) ∧
      (ip_info_core octets q).host_max =
        some ((ip_info_core octets q).broadcast - 1)) := by
  by_cases h30 : q ≤ 30
  · have htot : 4 ≤ total_hosts q := by
      unfold total_hosts
      rw [if_neg (by omega)]
      calc (4 : Nat) = 2 ^ 2 := by norm_num
      _ ≤ 2 ^ (32 - q) := Nat.pow_le_pow_right (by norm_num) (by omega)
    have husable : 0 < usable_hosts q := by
      unfold usable_hosts
      rw [if_pos h30]
      omega
    constructor
    · constructor
      · rintro ⟨hmin, -⟩
        simp [ip_info_core, h30, husable] at hmin
      · intro h0
        simp [ip_info_core] at h0
        omega
    · intro _
      constructor <;> simp [ip_info_core, h30, husable]
  · have husable : usable_hosts q = 0 := by
      unfold usable_hosts
      rw [if_neg h30]
    constructor
    · simp [ip_info_core, h30, husable]
    · intro h0
      simp [ip_info_core, husable] at h0

theorem ip_info_ok (s : List Char) (q : Int) (r : InfoRec)
    (h : ip_info s q = .ok r) :
    ∃ octets, q.toNat ≤ 32 ∧ r = ip_info_core octets q.toNat := by
  unfold ip_info at h
  by_cases h1 : s = []
  · rw [if_pos h1] at h
    simp at h
  · rw [if_neg h1] at h
    by_cases h2 : q < 0 ∨ 32 < q
    · rw [if_pos h2] at h
      simp at h
    · rw [if_neg h2] at h
      split at h
      · simp at h
      · rename_i octets hparse
        rw [Except.ok.injEq] at h
        exact ⟨octets.map Int.toNat, by omega, h.symm⟩

/-- C1 counterexample: partition("10.0.0.0/30", 4) does not fail with any
error: it returns a success record, contradicting the claim that it fails
with SubnetCountExceedsSpace. -/
theorem partition_30_4_counterexample :
    (subnetting ("10.0.0.0/30".toList) 4).isOk = true := by decide

/-- C1 amended: partition("10.0.0.0/30", 4) computes bits_borrowed 2 and
new_prefix 32 and succeeds, returning 4 single-address subnets
10.0.0.0/32 .. 10.0.0.3/32; the SubnetCountExceedsSpace error fires only
when the new prefix length strictly exceeds 32. -/
theorem partition_30_4_amended :
    subnetting ("10.0.0.0/30".toList) 4 = .ok
      { original_network := 167772160
        original_pfx := 30
        subnets_needed := 4
        bits_borrowed := 2
        new_pfx := 32
        subnets := [
          { subnet_number := 1, network := 167772160, broadcast := 167772160,
            host_min := none, host_max := none, total_hosts := 1,
            usable_hosts := 0 },
          { subnet_number := 2, network := 167772161, broadcast := 167772161,
            host_min := none, host_max := none, total_hosts := 1,
            usable_hosts := 0 },
          { subnet_number := 3, network := 167772162, broadcast := 167772162,
            host_min := none, host_max := none, total_hosts := 1,
            usable_hosts := 0 },
          { subnet_number := 4, network := 167772163, broadcast := 167772163,
            host_min := none, host_max := none, total_hosts := 1,
            usable_hosts := 0 }]
        total_subnets_created := 4 } := by rfl

/-- C2 counterexample: the input "-1.2.3.4" has a segment with a leading
sign, yet parse fails with OctetOutOfRange(1), not MalformedInput; and
"+1.2.3.4" parses successfully, contradicting the claim that every such
input fails with the format error. -/
theorem parse_sign_counterexample :
    parse_ipv4 ("-1.2.3.4".toList) = .error (.octetRange 1) ∧
    parse_ipv4 ("+1.2.3.4".toList) = .ok [1, 2, 3, 4] := ⟨rfl, rfl⟩

/-- C2 amended: for every input string in which some dot-separated segment
is rejected by Python int() (empty segments, or segments that are not an
optionally signed digit run with optional surrounding whitespace and
underscores between digits), parse fails with the MalformedInput (format)
error; segments accepted by int(), such as signed or whitespace-padded
numbers, do not produce the format error. -/
theorem parse_format_error_spec (s : List Char)
    (h : ∃ seg ∈ splitOnChar '.' s, pyInt seg = none) :
    parse_ipv4 s = .error .format := by
  unfold parse_ipv4
  rw [pyIntList_none _ h]

/-- Witness for C2's amended theorem at the input "1.x.3.4". -/
theorem parse_format_error_spec_witness :
    (∃ seg ∈ splitOnChar '.' ("1.x.3.4".toList), pyInt seg = none) ∧
    parse_ipv4 ("1.x.3.4".toList) = .error .format :=
  ⟨by decide, parse_format_error_spec _ (by decide)⟩

/-- C3: mask_from_prefix(0) = 0 and mask_from_prefix(32) = 0xFFFFFFFF; for
every prefix length p in [0,32] the mask is a 32-bit value whose bit i is
set exactly when 32-p ≤ i < 32 (the top p bits), and its 32-bit wildcard
complement has exactly the 32-p low bits set and the p high bits clear. -/
theorem mask_wildcard_spec (p : Nat) (hp : p ≤ 32) :
    mask_from_pfx 0 = 0 ∧ mask_from_pfx 32 = 0xFFFFFFFF ∧
    mask_from_pfx p < 2 ^ 32 ∧ wildcard32 (mask_from_pfx p) < 2 ^ 32 ∧
    (∀ i, i < 32 →
      ((mask_from_pfx p).testBit i = decide (32 - p ≤ i) ∧
        (wildcard32 (mask_from_pfx p)).testBit i = decide (i < 32 - p))) := by
  interval_cases p <;> decide

/-- Witness for C3 at p = 24. -/
theorem mask_wildcard_spec_witness :
    24 ≤ 32 ∧ (mask_from_pfx 0 = 0 ∧ mask_from_pfx 32 = 0xFFFFFFFF ∧
    mask_from_pfx 24 < 2 ^ 32 ∧ wildcard32 (mask_from_pfx 24) < 2 ^ 32 ∧
    (∀ i, i < 32 →
      ((mask_from_pfx 24).testBit i = decide (32 - 24 ≤ i) ∧
        (wildcard32 (mask_from_pfx 24)).testBit i = decide (i < 32 - 24)))) :=
  ⟨by decide, mask_wildcard_spec 24 (by decide)⟩

/-- C4: total_hosts(32) = 1 and total_hosts(p) = 2^(32-p) otherwise, with
total_hosts(0) = 4294967296 computed exactly; usable_hosts(p) = 0 for
p > 30 and max(total_hosts(p) - 2, 0) otherwise, so usable_hosts(p) =
total_hosts(p) - 2 for every p in [0,30]. -/
theorem hosts_spec (p : Nat) (hp : p ≤ 32) :
    total_hosts 0 = 4294967296 ∧ total_hosts 32 = 1 ∧
    (p ≠ 32 → total_hosts p = 2 ^ (32 - p)) ∧
    (30 < p → usable_hosts p = 0) ∧
    (p ≤ 30 → usable_hosts p = max (total_hosts p - 2) 0 ∧
      usable_hosts p = total_hosts p - 2 ∧ 2 ≤ total_hosts p) := by
  interval_cases p <;> decide

/-- Witness for C4 at p = 7. -/
theorem hosts_spec_witness :
    7 ≤ 32 ∧ (total_hosts 0 = 4294967296 ∧ total_hosts 32 = 1 ∧
    (7 ≠ 32 → total_hosts 7 = 2 ^ (32 - 7)) ∧
    (30 < 7 → usable_hosts 7 = 0) ∧
    (7 ≤ 30 → usable_hosts 7 = max (total_hosts 7 - 2) 0 ∧
      usable_hosts 7 = total_hosts 7 - 2 ∧ 2 ≤ total_hosts 7)) :=
  ⟨by decide, hosts_spec 7 (by decide)⟩

/-- C5: for every valid address and prefix, compute_info returns no host
range (host_min and host_max absent) exactly when the usable host count is
0 — in particular for compute_info("10.0.0.1", 32) — and otherwise returns
host_min = network + 1 and host_max = broadcast - 1. -/
theorem ip_info_host_range_spec (s : List Char) (q : Int) (r : InfoRec)
    (h : ip_info s q = .ok r) :
    ((r.host_min = none ∧ r.host_max = none) ↔ r.usable_hosts = 0) ∧
    (0 < r.usable_hosts →
      r.host_min = some (r.network_id + 1) ∧
      r.host_max = some (r.broadcast - 1)) ∧
    (ip_info ("10.0.0.1".toList) 32).map
        (fun t => (t.total_hosts, t.usable_hosts, t.host_min, t.host_max)) =
      .ok (1, 0, none, none) := by
  obtain ⟨octets, hq, rfl⟩ := ip_info_ok s q r h
  obtain ⟨h1, h2⟩ := ip_info_core_host_range octets q.toNat hq
  exact ⟨h1, h2, by rfl⟩

/-- Witness for C5 at compute_info("10.0.0.1", 32). -/
theorem ip_info_host_range_spec_witness :
    ip_info ("10.0.0.1".toList) 32 = .ok
      { pfx := 32, octets := [10, 0, 0, 1], ip_class := "Class A",
        network_type := "Private (10.0.0.0/8)", subnet_mask := 4294967295,
        wildcard_mask := 0, network_id := 167772161, broadcast := 167772161,
        host_min := none, host_max := none, total_hosts := 1,
        usable_hosts := 0 } ∧
    ((((none : Option Nat) = none ∧ (none : Option Nat) = none) ↔
        (0 : Nat) = 0) ∧
      ((0 : Nat) < 0 → (none : Option Nat) = some (167772161 + 1) ∧
        (none : Option Nat) = some (167772161 - 1)) ∧
      (ip_info ("10.0.0.1".toList) 32).map
          (fun t => (t.total_hosts, t.usable_hosts, t.host_min, t.host_max)) =
        .ok (1, 0, none, none)) := by
  have hok : ip_info ("10.0.0.1".toList) 32 = .ok
      { pfx := 32, octets := [10, 0, 0, 1], ip_class := "Class A",
        network_type := "Private (10.0.0.0/8)", subnet_mask := 4294967295,
        wildcard_mask := 0, network_id := 167772161, broadcast := 167772161,
        host_min := none, host_max := none, total_hosts := 1,
        usable_hosts := 0 } := rfl
  exact ⟨hok, ip_info_host_range_spec _ 32 _ hok⟩

/-- C6: for every valid partition request, the result contains exactly
min(subnets_needed, 2^bits_needed) subnet records, where bits_needed is the
least k with subnets_needed ≤ 2^k (i.e. ceil(log2(subnets_needed)), 0 for a
single subnet); the records are numbered 1..N in ascending address order
and the record at 1-based position i has network original_network +
(i-1) * 2^(32-new_prefix); in particular partition("192.168.1.0/24", 3)
borrows 2 bits and returns only 3 subnets. -/
theorem partition_count_spec (s : List Char) (n : Int) (r : SubnetResult)
    (h : subnetting s n = .ok r) :
    r.bits_borrowed = ceil_log2 r.subnets_needed ∧
    r.subnets_needed ≤ 2 ^ r.bits_borrowed ∧
    (∀ j, r.subnets_needed ≤ 2 ^ j → r.bits_borrowed ≤ j) ∧
    r.subnets.length = min r.subnets_needed (2 ^ r.bits_borrowed) ∧
    (∀ i (hi : i < r.subnets.length),
      (r.subnets.get ⟨i, hi⟩).subnet_number = i + 1 ∧
      (r.subnets.get ⟨i, hi⟩).network =
        r.original_network + i * 2 ^ (32 - r.new_pfx)) ∧
    (∀ i j (hi : i < r.subnets.length) (hj : j < r.subnets.length), i < j →
      (r.subnets.get ⟨i, hi⟩).network < (r.subnets.get ⟨j, hj⟩).network) ∧
    (subnetting ("192.168.1.0/24".toList) 3).map
        (fun t => (t.bits_borrowed, t.new_pfx, t.subnets.length)) =
      .ok (2, 26, 3) := by
  obtain ⟨x, p, m, hp, hm, hcore⟩ := subnetting_ok s n r h
  obtain ⟨hle, ho, hop, hn, hb, hnp, hsubs⟩ := subnettingCore_ok _ p m r hcore
  have hgetnet : ∀ i (hi : i < r.subnets.length),
      (r.subnets.get ⟨i, hi⟩).network =
        r.original_network + i * 2 ^ (32 - r.new_pfx) := by
    intro i hi
    rw [subnettingCore_get _ p m r hcore i hi, mk_subnet_network, ho, hnp]
  refine ⟨?_, ?_, ?_, ?_, ?_, ?_, by rfl⟩
  · rw [hn, hb]
  · rw [hn, hb]
    exact le_two_pow_ceil_log2 m
  · intro j hj
    rw [hb]
    exact ceil_log2_le m j (by rw [hn] at hj; exact hj)
  · rw [subnettingCore_length _ p m r hcore, hn, hb]
  · intro i hi
    exact ⟨by rw [subnettingCore_get _ p m r hcore i hi, mk_subnet_number],
      hgetnet i hi⟩
  · intro i j hi hj hij
    rw [hgetnet i hi, hgetnet j hj]
    have hs : 0 < 2 ^ (32 - r.new_pfx) := pow_pos (by norm_num) _
    exact Nat.add_lt_add_left ((Nat.mul_lt_mul_right hs).mpr hij) _


/-- Witness for C6 at partition("0.0.0.0/31", 2). -/
theorem partition_count_spec_witness :
    subnetting ("0.0.0.0/31".toList) 2 = .ok result_0_31_2 ∧
    (result_0_31_2.bits_borrowed = ceil_log2 result_0_31_2.subnets_needed ∧
      result_0_31_2.subnets_needed ≤ 2 ^ result_0_31_2.bits_borrowed ∧
      (∀ j, result_0_31_2.subnets_needed ≤ 2 ^ j →
        result_0_31_2.bits_borrowed ≤ j) ∧
      result_0_31_2.subnets.length =
        min result_0_31_2.subnets_needed (2 ^ result_0_31_2.bits_borrowed) ∧
      (∀ i (hi : i < result_0_31_2.subnets.length),
        (result_0_31_2.subnets.get ⟨i, hi⟩).subnet_number = i + 1 ∧
        (result_0_31_2.subnets.get ⟨i, hi⟩).network =
          result_0_31_2.original_network +
            i * 2 ^ (32 - result_0_31_2.new_pfx)) ∧
      (∀ i j (hi : i < result_0_31_2.subnets.length)
          (hj : j < result_0_31_2.subnets.length), i < j →
        (result_0_31_2.subnets.get ⟨i, hi⟩).network <
          (result_0_31_2.subnets.get ⟨j, hj⟩).network) ∧
      (subnetting ("192.168.1.0/24".toList) 3).map
          (fun t => (t.bits_borrowed, t.new_pfx, t.subnets.length)) =
        .ok (2, 26, 3)) := by
  have hok : subnetting ("0.0.0.0/31".toList) 2 = .ok result_0_31_2 := rfl
  exact ⟨hok, partition_count_spec _ 2 _ hok⟩

/-- C7: for every valid partition request, no two returned subnets' address
ranges (network through broadcast) intersect; and when subnets_needed is an
exact power of two, the union of the returned ranges is exactly the
original network's full address range. -/
theorem partition_ranges_spec (s : List Char) (n : Int) (r : SubnetResult)
    (h : subnetting s n = .ok r) :
    (∀ i j (hi : i < r.subnets.length) (hj : j < r.subnets.length), i ≠ j →
      ∀ a, ¬ ((r.subnets.get ⟨i, hi⟩).network ≤ a ∧
        a ≤ (r.subnets.get ⟨i, hi⟩).broadcast ∧
        (r.subnets.get ⟨j, hj⟩).network ≤ a ∧
        a ≤ (r.subnets.get ⟨j, hj⟩).broadcast)) ∧
    (∀ k, r.subnets_needed = 2 ^ k →
      ∀ a, (r.original_network ≤ a ∧
          a ≤ r.original_network + 2 ^ (32 - r.original_pfx) - 1) ↔
        ∃ t ∈ r.subnets, t.network ≤ a ∧ a ≤ t.broadcast) := by
  obtain ⟨x, p, m, hp, hm, hcore⟩ := subnetting_ok s n r h
  constructor
  · intro i j hi hj hij a
    exact subnettingCore_disjoint _ p m r hcore i j hi hj hij a
  · intro k hk a
    obtain ⟨-, ho, hop, hn, -, -, -⟩ := subnettingCore_ok _ p m r hcore
    rw [ho, hop]
    exact subnettingCore_cover _ p m r hcore k (by rw [← hn]; exact hk) a

/-- Witness for C7 at partition("0.0.0.0/31", 2). -/
theorem partition_ranges_spec_witness :
    subnetting ("0.0.0.0/31".toList) 2 = .ok result_0_31_2 ∧
    ((∀ i j (hi : i < result_0_31_2.subnets.length)
        (hj : j < result_0_31_2.subnets.length), i ≠ j →
      ∀ a, ¬ ((result_0_31_2.subnets.get ⟨i, hi⟩).network ≤ a ∧
        a ≤ (result_0_31_2.subnets.get ⟨i, hi⟩).broadcast ∧
        (result_0_31_2.subnets.get ⟨j, hj⟩).network ≤ a ∧
        a ≤ (result_0_31_2.subnets.get ⟨j, hj⟩).broadcast)) ∧
    (∀ k, result_0_31_2.subnets_needed = 2 ^ k →
      ∀ a, (result_0_31_2.original_network ≤ a ∧
          a ≤ result_0_31_2.original_network +
            2 ^ (32 - result_0_31_2.original_pfx) - 1) ↔
        ∃ t ∈ result_0_31_2.subnets, t.network ≤ a ∧ a ≤ t.broadcast)) := by
  have hok : subnetting ("0.0.0.0/31".toList) 2 = .ok result_0_31_2 := rfl
  exact ⟨hok, partition_ranges_spec _ 2 _ hok⟩

/-- C8: the code has no 2^24 cap on the number of generated subnets; the
only guard is new_prefix ≤ 32, so a request creating 2^25 = 33554432
subnets from 0.0.0.0/0 succeeds and enumerates all of them instead of
returning an error. -/
theorem partition_no_cap :
    (subnettingCore 0 0 33554432).map (fun t => t.subnets.length) =
      .ok 33554432 ∧ 16777216 < 33554432 := by
  have hc : ceil_log2 33554432 = 25 := rfl
  constructor
  · unfold subnettingCore
    rw [hc]
    norm_num
    simp [Except.map, List.length_map, List.length_range]
  · norm_num

/-- C9: every octet segment consisting solely of ASCII digits (leading
zeros allowed) parses as a decimal integer — no octal interpretation — and
when all four segments' decimal values are in [0,255] the whole address
parses to those values; prepending a zero to a digit segment changes
neither acceptance nor value. -/
theorem parse_leading_zeros_spec (s1 s2 s3 s4 : List Char)
    (h1 : s1 ≠ []) (h2 : s2 ≠ []) (h3 : s3 ≠ []) (h4 : s4 ≠ [])
    (hd1 : ∀ c ∈ s1, c.isDigit = true) (hd2 : ∀ c ∈ s2, c.isDigit = true)
    (hd3 : ∀ c ∈ s3, c.isDigit = true) (hd4 : ∀ c ∈ s4, c.isDigit = true)
    (hv1 : decVal s1 ≤ 255) (hv2 : decVal s2 ≤ 255) (hv3 : decVal s3 ≤ 255)
    (hv4 : decVal s4 ≤ 255) :
    parse_ipv4 (s1 ++ '.' :: (s2 ++ '.' :: (s3 ++ '.' :: s4))) =
      .ok [(decVal s1 : Int), (decVal s2 : Int), (decVal s3 : Int),
        (decVal s4 : Int)] ∧
    pyInt ('0' :: s1) = some ((decVal s1 : Nat) : Int) ∧
    decVal ('0' :: s1) = decVal s1 := by
  have hns : ∀ (s : List Char), (∀ c ∈ s, c.isDigit = true) →
      ('.' : Char) ∉ s := by
    intro s hs hm
    exact absurd (hs '.' hm) (by decide)
  have hz : decVal ('0' :: s1) = decVal s1 := rfl
  refine ⟨?_, ?_, hz⟩
  · unfold parse_ipv4
    rw [splitOnChar_append '.' s1 _ (hns s1 hd1),
      splitOnChar_append '.' s2 _ (hns s2 hd2),
      splitOnChar_append '.' s3 _ (hns s3 hd3),
      splitOnChar_no_sep '.' s4 (hns s4 hd4)]
    have hlist : pyIntList [s1, s2, s3, s4] =
        some [(decVal s1 : Int), decVal s2, decVal s3, decVal s4] := by
      simp only [pyIntList, pyInt_digits s1 h1 hd1, pyInt_digits s2 h2 hd2,
        pyInt_digits s3 h3 hd3, pyInt_digits s4 h4 hd4]
    rw [hlist]
    have hbad : firstBadOctet 1
        [(decVal s1 : Int), decVal s2, decVal s3, decVal s4] = none := by
      refine firstBadOctet_none_of_le 1 _ ?_
      intro o ho
      simp only [List.mem_cons, List.not_mem_nil, or_false] at ho
      rcases ho with rfl | rfl | rfl | rfl <;> omega
    simp [hbad]
  · have hd0 : ∀ c ∈ '0' :: s1, c.isDigit = true := by
      intro c hc
      rcases List.mem_cons.mp hc with rfl | hm
      · decide
      · exact hd1 c hm
    rw [pyInt_digits ('0' :: s1) (by simp) hd0, hz]

/-- Witness for C9 at "010.0.007.255". -/
theorem parse_leading_zeros_spec_witness :
    ("010".toList ≠ [] ∧ "0".toList ≠ [] ∧ "007".toList ≠ [] ∧
      "255".toList ≠ []) ∧
    ((∀ c ∈ "010".toList, c.isDigit = true) ∧
      (∀ c ∈ "0".toList, c.isDigit = true) ∧
      (∀ c ∈ "007".toList, c.isDigit = true) ∧
      (∀ c ∈ "255".toList, c.isDigit = true)) ∧
    (decVal "010".toList ≤ 255 ∧ decVal "0".toList ≤ 255 ∧
      decVal "007".toList ≤ 255 ∧ decVal "255".toList ≤ 255) ∧
    (parse_ipv4 ("010".toList ++ '.' :: ("0".toList ++ '.' ::
        ("007".toList ++ '.' :: "255".toList))) =
      .ok [(decVal "010".toList : Int), (decVal "0".toList : Int),
        (decVal "007".toList : Int), (decVal "255".toList : Int)] ∧
      pyInt ('0' :: "010".toList) =
        some ((decVal "010".toList : Nat) : Int) ∧
      decVal ('0' :: "010".toList) = decVal "010".toList) :=
  ⟨⟨by decide, by decide, by decide, by decide⟩,
    ⟨by decide, by decide, by decide, by decide⟩,
    ⟨by decide, by decide, by decide, by decide⟩,
    parse_leading_zeros_spec _ _ _ _ (by decide) (by decide) (by decide)
      (by decide) (by decide) (by decide) (by decide) (by decide)
      (by decide) (by decide) (by decide) (by decide)⟩

/-- C10: for every valid CIDR input to partition, the base address is ANDed
with the prefix's mask before subnetting, so inputs with host bits set are
canonicalized rather than rejected — partition("192.168.1.77/24", 1)
reports original network 192.168.1.0 — and the reported original network
and every returned subnet network are fixed points of masking at their
prefix lengths. -/
theorem partition_canonicalize_spec (s : List Char) (n : Int)
    (r : SubnetResult) (h : subnetting s n = .ok r) :
    (r.original_network &&& mask_from_pfx r.original_pfx =
        r.original_network ∧
      ∀ t ∈ r.subnets, t.network &&& mask_from_pfx r.new_pfx = t.network) ∧
    subnetting ("192.168.1.77/24".toList) 1 = .ok result_77_24_1 := by
  obtain ⟨x, p, m, hp, hm, hcore⟩ := subnetting_ok s n r h
  exact ⟨subnettingCore_aligned x p m r hp hcore, rfl⟩

/-- Witness for C10 at partition("192.168.1.77/24", 1). -/
theorem partition_canonicalize_spec_witness :
    subnetting ("192.168.1.77/24".toList) 1 = .ok result_77_24_1 ∧
    ((result_77_24_1.original_network &&&
          mask_from_pfx result_77_24_1.original_pfx =
        result_77_24_1.original_network ∧
      ∀ t ∈ result_77_24_1.subnets,
        t.network &&& mask_from_pfx result_77_24_1.new_pfx = t.network) ∧
    subnetting ("192.168.1.77/24".toList) 1 = .ok result_77_24_1) := by
  have hok : subnetting ("192.168.1.77/24".toList) 1 = .ok result_77_24_1 :=
    rfl
  exact ⟨hok, partition_canonicalize_spec _ 1 _ hok⟩
